import Mathlib

/-!
Verification of the sequential FIFO byte-queue repository.

The development shallowly embeds the C++ sources:
* ring_buffer (fixed-capacity circular buffer with head/tail/free counters),
* queue (FIFO as a list of ring-buffer nodes, prepend at front, pop at back),
* the C API entry points (dequeue_byte, queue_is_empty, queue_size),
* freelist_storage / segment_metadata (intrusive free lists inside segments),
* unique_growing_pool (chain of segment managers with hint caches),
* basic_growing_pool_ptr (bit-packed compact pointer: resolve, advance,
  construction from a raw address).

C++ machine integers are modelled as Nat with explicit mod where the code
relies on wrap-around; result-returning functions become Option or explicit
outcome inductives; a recoverable error result (the fail macro) and a fatal
assertion (the fatal macro, which aborts the process) are represented by
distinct constructors wherever the distinction matters.
-/

namespace SeqFifo

/-! ### Ring buffer (class ring_buffer, part_018)

State of a ring_buffer of capacity count: the three counters _head, _tail,
_free and the backing storage.  Storage cells are modelled as a total
function from slot index to value; the code only ever reads slots that were
previously written, so the remaining cells carry unobserved junk exactly as
uninitialised memory does. -/

structure RingBuffer (β : Type) (count : Nat) where
  head : Nat
  tail : Nat
  free : Nat
  storage : Nat → β

variable {β : Type} {count : Nat}

/-- is_full(): free == 0. -/
def RingBuffer.isFull (rb : RingBuffer β count) : Bool := rb.free == 0

/-- empty(): free == count. -/
def RingBuffer.isEmpty (rb : RingBuffer β count) : Bool := rb.free == count

/-- size(): count - free. -/
def RingBuffer.size (rb : RingBuffer β count) : Nat := count - rb.free

/-- advance_tail(): tail = (tail + 1) % count; --free. -/
def RingBuffer.advanceTail (rb : RingBuffer β count) : RingBuffer β count :=
  { rb with tail := (rb.tail + 1) % count, free := rb.free - 1 }

/-- advance_head(): head = (head + 1) % count; ++free. -/
def RingBuffer.advanceHead (rb : RingBuffer β count) : RingBuffer β count :=
  { rb with head := (rb.head + 1) % count, free := rb.free + 1 }

/-- Placement-new of a value at construction_location(i). -/
def RingBuffer.writeAt (rb : RingBuffer β count) (i : Nat) (v : β) :
    RingBuffer β count :=
  { rb with storage := fun j => if j = i then v else rb.storage j }

/-- Outcome of a ring-buffer write operation.  containerFull is the
recoverable error produced by the fail macro in push; fatalAbort is the
non-returning fatal assertion used by emplace. -/
inductive RBWrite (β : Type) (count : Nat) where
  | containerFull
  | fatalAbort
  | ok (rb : RingBuffer β count)

/-- push(v): fail(is_full()); construct at storage[_tail]; advance_tail(). -/
def RingBuffer.push (rb : RingBuffer β count) (v : β) : RBWrite β count :=
  if rb.isFull then .containerFull
  else .ok ((rb.writeAt rb.tail v).advanceTail)

/-- emplace(args...): fatal(is_full()); construct at storage[_tail];
advance_tail(). -/
def RingBuffer.emplace (rb : RingBuffer β count) (v : β) : RBWrite β count :=
  if rb.isFull then .fatalAbort
  else .ok ((rb.writeAt rb.tail v).advanceTail)

/-- pop(): fail(empty()); move out of storage[_head]; advance_head(). -/
def RingBuffer.pop (rb : RingBuffer β count) : Option (β × RingBuffer β count) :=
  if rb.isEmpty then none
  else some (rb.storage rb.head, rb.advanceHead)

/-- Logical contents of the buffer, oldest (head) first: the elements at
positions [head, head + size) mod count. -/
def RingBuffer.toList (rb : RingBuffer β count) : List β :=
  (List.range rb.size).map fun i => rb.storage ((rb.head + i) % count)

/-- Well-formedness of the counter triple: head in range, free within
capacity, and tail sitting one past the newest element. -/
def RingBuffer.WF (rb : RingBuffer β count) : Prop :=
  rb.head < count ∧ rb.free ≤ count ∧ rb.tail = (rb.head + rb.size) % count

/-- A freshly constructed ring_buffer: head = tail = 0, free = count,
storage uninitialised (modelled by a fixed junk value). -/
def freshRB (β : Type) (count : Nat) [Inhabited β] : RingBuffer β count :=
  ⟨0, 0, count, fun _ => default⟩

theorem freshRB_WF [Inhabited β] (hc : 0 < count) : (freshRB β count).WF := by
  refine ⟨hc, le_rfl, ?_⟩
  simp [freshRB, RingBuffer.size]

theorem freshRB_toList [Inhabited β] : (freshRB β count).toList = [] := by
  simp [freshRB, RingBuffer.toList, RingBuffer.size]

theorem freshRB_not_full [Inhabited β] (hc : 0 < count) :
    (freshRB β count).isFull = false := by
  simp [freshRB, RingBuffer.isFull]
  omega

/-- Cancellation of congruent indices less than the modulus. -/
theorem mod_shift_inj (h i j : Nat) (hi : i < count) (hj : j < count)
    (heq : (h + i) % count = (h + j) % count) : i = j := by
  have hm : i ≡ j [MOD count] := Nat.ModEq.add_left_cancel' h heq
  have := hm.eq_of_lt_of_lt hi hj
  exact this

theorem size_lt_of_not_full {rb : RingBuffer β count} (hwf : rb.WF)
    (hnf : rb.isFull = false) : rb.size < count := by
  have h1 : rb.free ≠ 0 := by
    simpa [RingBuffer.isFull] using hnf
  have h2 : rb.free ≤ count := hwf.2.1
  simp [RingBuffer.size]
  omega

/-- Successful push appends the value at the logical back of the buffer. -/
theorem push_ok_spec {rb : RingBuffer β count} {v : β} (hwf : rb.WF)
    (hnf : rb.isFull = false) :
    ∃ rb', rb.push v = .ok rb' ∧ rb'.WF ∧
      rb'.toList = rb.toList ++ [v] ∧ rb'.size = rb.size + 1 := by
  have hfree0 : rb.free ≠ 0 := by simpa [RingBuffer.isFull] using hnf
  have hfreele : rb.free ≤ count := hwf.2.1
  have hszlt : rb.size < count := size_lt_of_not_full hwf hnf
  have hcpos : 0 < count := Nat.lt_of_le_of_lt (Nat.zero_le _) hszlt
  refine ⟨(rb.writeAt rb.tail v).advanceTail, ?_, ?_, ?_, ?_⟩
  · simp [RingBuffer.push, RingBuffer.isFull, hfree0]
  · refine ⟨hwf.1, by simp [RingBuffer.advanceTail, RingBuffer.writeAt]; omega, ?_⟩
    have hsz : ((rb.writeAt rb.tail v).advanceTail).size = rb.size + 1 := by
      simp [RingBuffer.advanceTail, RingBuffer.writeAt, RingBuffer.size]
      omega
    rw [hsz]
    simp only [RingBuffer.advanceTail, RingBuffer.writeAt]
    rw [hwf.2.2]
    rw [Nat.mod_add_mod]
    exact congrArg (fun t => t % count) (by omega)
  · have hsz : ((rb.writeAt rb.tail v).advanceTail).size = rb.size + 1 := by
      simp [RingBuffer.advanceTail, RingBuffer.writeAt, RingBuffer.size]
      omega
    simp only [RingBuffer.toList, hsz]
    rw [List.range_succ, List.map_append]
    congr 1
    · apply List.map_congr_left
      intro i hi
      simp only [List.mem_range] at hi
      simp only [RingBuffer.advanceTail, RingBuffer.writeAt]
      have hne : (rb.head + i) % count ≠ rb.tail := by
        rw [hwf.2.2]
        intro hcontra
        have := mod_shift_inj rb.head i rb.size
          (Nat.lt_trans hi hszlt) hszlt hcontra
        omega
      simp [hne]
    · simp only [RingBuffer.advanceTail, RingBuffer.writeAt, List.map_cons,
        List.map_nil]
      rw [hwf.2.2]
      simp
  · simp [RingBuffer.advanceTail, RingBuffer.writeAt, RingBuffer.size]
    omega

/-- Successful pop removes and returns the oldest element. -/
theorem pop_some_spec {rb : RingBuffer β count} (hwf : rb.WF)
    (hne : rb.isEmpty = false) :
    ∃ v rb', rb.pop = some (v, rb') ∧ rb'.WF ∧
      rb.toList = v :: rb'.toList ∧ rb'.size + 1 = rb.size := by
  have hfree : rb.free ≠ count := by simpa [RingBuffer.isEmpty] using hne
  have hfreele : rb.free ≤ count := hwf.2.1
  have hszpos : 0 < rb.size := by simp [RingBuffer.size]; omega
  have hcpos : 0 < count := by
    simp only [RingBuffer.size] at hszpos
    omega
  refine ⟨rb.storage rb.head, rb.advanceHead, ?_, ?_, ?_, ?_⟩
  · simp [RingBuffer.pop, RingBuffer.isEmpty, hfree]
  · refine ⟨Nat.mod_lt _ hcpos, ?_, ?_⟩
    · show rb.free + 1 ≤ count
      omega
    · show rb.tail = ((rb.head + 1) % count + (count - (rb.free + 1))) % count
      rw [Nat.mod_add_mod, hwf.2.2]
      congr 1
      simp only [RingBuffer.size]
      omega
  · have hsz : rb.size = rb.advanceHead.size + 1 := by
      simp [RingBuffer.advanceHead, RingBuffer.size]
      omega
    simp only [RingBuffer.toList, hsz]
    rw [List.range_succ_eq_map, List.map_cons]
    congr 1
    · simp [Nat.mod_eq_of_lt hwf.1]
    · rw [List.map_map]
      apply List.map_congr_left
      intro i _
      simp only [RingBuffer.advanceHead, Function.comp]
      rw [Nat.mod_add_mod]
      congr 2
      omega
  · simp [RingBuffer.advanceHead, RingBuffer.size]
    omega

/-- An empty well-formed buffer has no logical contents. -/
theorem toList_nil_of_isEmpty {rb : RingBuffer β count}
    (he : rb.isEmpty = true) : rb.toList = [] := by
  have : rb.free = count := by simpa [RingBuffer.isEmpty] using he
  simp [RingBuffer.toList, RingBuffer.size, this]

/-! ### Byte queue (class queue, src/src/datastructures/queue.h)

The queue state is its offset_list of ring_buffer_node values, head of the
Lean list = front of the offset_list (newest node).  Node allocation by the
dynamic allocator is modelled as succeeding; a failed allocation makes the
C++ push return an error before the list is touched, so failed operations do
not produce new observable states. -/

abbrev Queue (β : Type) (count : Nat) := List (RingBuffer β count)

/-- Guard of queue::push: _list.is_empty() || front node buffer is_full(). -/
def needNewNode (q : Queue β count) : Bool :=
  match q with
  | [] => true
  | f :: _ => f.isFull

/-- queue::push(value): prepend a fresh node when the list is empty or the
front buffer is full, then push into the front node's buffer.  The result of
the inner buffer push is discarded by the source, so a (guard-excluded)
buffer failure would leave the node unchanged. -/
def qpush [Inhabited β] (q : Queue β count) (v : β) : Queue β count :=
  let q' := if needNewNode q then freshRB β count :: q else q
  match q' with
  | [] => []
  | f :: rest =>
    (match f.push v with
     | .ok f' => f'
     | _ => f) :: rest

/-- queue::pop(): fail(empty()); pop from the back node's buffer; if that
buffer became empty, erase the back node; return the value. -/
def qpop (q : Queue β count) : Option (β × Queue β count) :=
  match q.getLast? with
  | none => none
  | some b =>
    match b.pop with
    | none => none
    | some (v, b') =>
      some (v, if b'.isEmpty then q.dropLast else q.dropLast ++ [b'])

/-- queue::size(): sum of the ring-buffer sizes over all nodes. -/
def qsize (q : Queue β count) : Nat := (q.map RingBuffer.size).sum

/-- Abstract contents of the queue, oldest first: back node (oldest bytes)
first, each node's buffer oldest-first. -/
def qToList (q : Queue β count) : List β :=
  (q.reverse.map RingBuffer.toList).flatten

/-- State invariant: every node's buffer is well formed and non-empty. -/
def QWF (q : Queue β count) : Prop :=
  ∀ rb ∈ q, rb.WF ∧ rb.isEmpty = false

theorem qToList_cons (f : RingBuffer β count) (rest : Queue β count) :
    qToList (f :: rest) = qToList rest ++ f.toList := by
  simp [qToList]

theorem qToList_append_single (dl : Queue β count) (b : RingBuffer β count) :
    qToList (dl ++ [b]) = b.toList ++ qToList dl := by
  simp [qToList]

theorem isEmpty_false_of_size_pos {rb : RingBuffer β count}
    (hfree : rb.free ≤ count) (hsz : 0 < rb.size) : rb.isEmpty = false := by
  simp only [RingBuffer.size] at hsz
  simp only [RingBuffer.isEmpty, beq_eq_false_iff_ne, ne_eq]
  omega

theorem push_preserves [Inhabited β] (hc : 0 < count)
    {q : Queue β count} (hq : QWF q) (v : β) :
    QWF (qpush q v) ∧ qToList (qpush q v) = qToList q ++ [v] := by
  by_cases hguard : needNewNode q = true
  · -- a fresh node is prepended, the value lands in it
    obtain ⟨rb', hpush, hwf', hlist', hsz'⟩ :=
      push_ok_spec (freshRB_WF hc) (freshRB_not_full (β := β) hc) (v := v)
    have hq' : qpush q v = rb' :: q := by
      simp [qpush, hguard, hpush]
    constructor
    · intro rb hrb
      rw [hq'] at hrb
      rcases List.mem_cons.mp hrb with h | h
      · rw [h]
        exact ⟨hwf', isEmpty_false_of_size_pos hwf'.2.1 (by omega)⟩
      · exact hq rb h
    · rw [hq', qToList_cons, hlist', freshRB_toList]
      simp
  · -- the front node has room, the value lands in it
    match hqe : q with
    | [] => simp [needNewNode] at hguard
    | f :: rest =>
      have hffull : f.isFull = false := by
        simpa [needNewNode] using hguard
      have hfwf := (hq f (List.mem_cons_self _ _)).1
      obtain ⟨f', hpush, hwf', hlist', hsz'⟩ := push_ok_spec hfwf hffull (v := v)
      have hq' : qpush (f :: rest) v = f' :: rest := by
        simp [qpush, needNewNode, hffull, hpush]
      constructor
      · intro rb hrb
        rw [hq'] at hrb
        rcases List.mem_cons.mp hrb with h | h
        · rw [h]
          exact ⟨hwf', isEmpty_false_of_size_pos hwf'.2.1 (by omega)⟩
        · exact hq rb (List.mem_cons_of_mem _ h)
      · rw [hq', qToList_cons, hlist', qToList_cons]
        simp

theorem pop_preserves {q : Queue β count} (hq : QWF q) (hne : q ≠ []) :
    ∃ v q', qpop q = some (v, q') ∧ QWF q' ∧ qToList q = v :: qToList q' := by
  obtain ⟨b, hlast⟩ := Option.isSome_iff_exists.mp (List.getLast?_isSome.mpr hne)
  have hqsplit : q = q.dropLast ++ [b] := (List.dropLast_append_getLast? b hlast).symm
  have hbmem : b ∈ q := by
    rw [hqsplit]
    exact List.mem_append_right _ (by simp)
  obtain ⟨hbwf, hbne⟩ := hq b hbmem
  obtain ⟨v, b', hpop, hwf', hlist', hsz'⟩ := pop_some_spec hbwf hbne
  have hdrop : QWF q.dropLast := by
    intro rb hrb
    exact hq rb (List.dropLast_subset _ hrb)
  have hqto : qToList q = v :: (b'.toList ++ qToList q.dropLast) := by
    conv_lhs => rw [hqsplit]
    rw [qToList_append_single, hlist']
    simp
  by_cases hbe : b'.isEmpty = true
  · refine ⟨v, q.dropLast, ?_, hdrop, ?_⟩
    · simp [qpop, hlast, hpop, hbe]
    · rw [hqto, toList_nil_of_isEmpty hbe]
      simp
  · refine ⟨v, q.dropLast ++ [b'], ?_, ?_, ?_⟩
    · simp [qpop, hlast, hpop, hbe]
    · intro rb hrb
      rcases List.mem_append.mp hrb with h | h
      · exact hdrop rb h
      · have hrb' : rb = b' := by simpa using h
        rw [hrb']
        exact ⟨hwf', by simpa using hbe⟩
    · rw [hqto, qToList_append_single]

/-- Queue operations as seen at the public interface. -/
inductive QOp (β : Type) where
  | enq (b : β)
  | deq

/-- Run a sequence of operations, threading the queue state and collecting
the dequeued values; none when some dequeue observes a failure. -/
def runOps [Inhabited β] :
    List (QOp β) → Queue β count → List β → Option (Queue β count × List β)
  | [], q, outs => some (q, outs)
  | .enq b :: ops, q, outs => runOps ops (qpush q b) outs
  | .deq :: ops, q, outs =>
    match qpop q with
    | none => none
    | some (v, q') => runOps ops q' (outs ++ [v])

/-- Run a sequence of operations from a freshly created (empty) queue. -/
def runQueue [Inhabited β] (ops : List (QOp β)) :
    Option (Queue β count × List β) :=
  runOps ops [] []

/-- The bytes enqueued by a sequence of operations, in order. -/
def enqueued : List (QOp β) → List β
  | [] => []
  | .enq b :: ops => b :: enqueued ops
  | .deq :: ops => enqueued ops

theorem runOps_spec [Inhabited β] (hc : 0 < count) :
    ∀ (ops : List (QOp β)) (q : Queue β count) (outs : List β)
      (qf : Queue β count) (outsf : List β), QWF q →
      runOps ops q outs = some (qf, outsf) →
      QWF qf ∧ outsf ++ qToList qf = outs ++ qToList q ++ enqueued ops := by
  intro ops
  induction ops with
  | nil =>
    intro q outs qf outsf hq hrun
    simp only [runOps, Option.some.injEq, Prod.mk.injEq] at hrun
    obtain ⟨h1, h2⟩ := hrun
    subst h1; subst h2
    exact ⟨hq, by simp [enqueued]⟩
  | cons op ops ih =>
    intro q outs qf outsf hq hrun
    match op with
    | .enq b =>
      simp only [runOps] at hrun
      obtain ⟨hwf', hlist'⟩ := push_preserves hc hq b
      obtain ⟨h1, h2⟩ := ih (qpush q b) outs qf outsf hwf' hrun
      refine ⟨h1, ?_⟩
      rw [h2, hlist', enqueued]
      simp
    | .deq =>
      simp only [runOps] at hrun
      match hqp : qpop q with
      | none =>
        rw [hqp] at hrun
        exact Option.noConfusion hrun
      | some (v, q') =>
        rw [hqp] at hrun
        have hrun' : runOps ops q' (outs ++ [v]) = some (qf, outsf) := hrun
        have hqne : q ≠ [] := by
          intro h
          rw [h] at hqp
          simp [qpop] at hqp
        obtain ⟨v₂, q₂, hpop₂, hwf₂, hlist₂⟩ := pop_preserves hq hqne
        have heq : v₂ = v ∧ q₂ = q' := by
          have hcomb := hpop₂.symm.trans hqp
          simpa using hcomb
        obtain ⟨hv, hq2⟩ := heq
        subst hv; subst hq2
        obtain ⟨h1, h2⟩ := ih _ _ qf outsf hwf₂ hrun'
        refine ⟨h1, ?_⟩
        rw [h2, hlist₂, enqueued]
        simp

/-- C1: for every sequence of enqueue and dequeue operations on a single
byte queue in which no operation observes a failure, the dequeued bytes are
the prefix, of the same length, of the enqueued bytes. -/
theorem claim_C1_fifo [Inhabited β] (hc : 0 < count)
    (ops : List (QOp β)) (r : Queue β count × List β)
    (hrun : runQueue ops = some r) :
    r.2 = (enqueued ops).take r.2.length := by
  obtain ⟨_, h2⟩ := runOps_spec hc ops [] [] r.1 r.2 (by intro rb hrb; cases hrb) hrun
  simp only [qToList, List.reverse_nil, List.map_nil, List.flatten_nil,
    List.nil_append, List.append_nil] at h2
  rw [← h2, List.take_left]

theorem claim_C1_fifo_witness :
    ([5] : List Nat) =
      (enqueued [QOp.enq 5, QOp.deq, QOp.enq 7]).take 1 :=
  claim_C1_fifo (by decide)
    [QOp.enq 5, QOp.deq, QOp.enq 7]
    (((
      [⟨0, 1, 1, fun j => if j = 0 then 7 else (freshRB Nat 2).storage j⟩],
      [5]) : Queue Nat 2 × List Nat))
    rfl

/-- C7: in every state reachable by a sequence of public operations, no node
of the queue holds an empty ring buffer (a node emptied by a pop is removed
by that same pop before the operation returns). -/
theorem claim_C7_no_empty_node [Inhabited β] (hc : 0 < count)
    (ops : List (QOp β)) (r : Queue β count × List β)
    (hrun : runQueue ops = some r) :
    r.1.all (fun rb => !rb.isEmpty) = true := by
  obtain ⟨h1, _⟩ := runOps_spec hc ops [] [] r.1 r.2 (by intro rb hrb; cases hrb) hrun
  rw [List.all_eq_true]
  intro rb hrb
  have := (h1 rb hrb).2
  simp [this]

theorem claim_C7_no_empty_node_witness :
    ((((runQueue [QOp.enq 5, QOp.enq 6, QOp.enq 7, QOp.deq] :
          Option (Queue Nat 2 × List Nat))).getD ([], [])).1).all
      (fun rb => !rb.isEmpty) = true :=
  claim_C7_no_empty_node (by decide) [QOp.enq 5, QOp.enq 6, QOp.enq 7, QOp.deq]
    _ rfl

/-! ### C API boundary (queue_c_api.cpp, callback-based variant)

A C entry point either returns a value or invokes one of the two
non-returning callbacks; the three possibilities are the constructors of
CCall. -/

inductive CCall (α : Type) where
  | illegalOp
  | outOfMemory
  | ret (a : α)

/-- dequeue_byte(q): null handle → on_illegal_operation(); failed pop →
on_illegal_operation(); otherwise return the popped byte (the mutated queue
is carried along with it). -/
def dequeueByte (h : Option (Queue β count)) : CCall (β × Queue β count) :=
  match h with
  | none => .illegalOp
  | some q =>
    match qpop q with
    | none => .illegalOp
    | some (v, q') => .ret (v, q')

/-- queue_is_empty(q): null handle is treated as empty, no callback. -/
def queueIsEmpty (h : Option (Queue β count)) : CCall Bool :=
  match h with
  | none => .ret true
  | some q => .ret q.isEmpty

/-- queue_size(q): null handle yields 0, no callback. -/
def queueSize (h : Option (Queue β count)) : CCall Nat :=
  match h with
  | none => .ret 0
  | some q => .ret (qsize q)

/-- Under the queue invariant a pop fails exactly on the empty queue. -/
theorem qpop_none_iff {q : Queue β count} (hq : QWF q) :
    qpop q = none ↔ q = [] := by
  constructor
  · intro h
    by_contra hne
    obtain ⟨v, q', hpop, _, _⟩ := pop_preserves hq hne
    rw [hpop] at h
    exact Option.noConfusion h
  · intro h
    rw [h]
    rfl

/-- C4: dequeue_byte invokes on_illegal_operation in exactly two situations:
null handle or empty queue; in all other cases it returns the dequeued byte
without invoking any callback. -/
theorem claim_C4_dequeue_byte (h : Option (Queue β count))
    (hinv : ∀ q, h = some q → QWF q) :
    (dequeueByte h = .illegalOp ↔
      h = none ∨ ∃ q, h = some q ∧ q.isEmpty = true) ∧
    (∀ q, h = some q → q.isEmpty = false →
      ∃ v q', qpop q = some (v, q') ∧ dequeueByte h = .ret (v, q')) := by
  match h with
  | none =>
    refine ⟨?_, ?_⟩
    · simp [dequeueByte]
    · intro q hq
      exact Option.noConfusion hq
  | some q =>
    have hqwf : QWF q := hinv q rfl
    by_cases hqe : q = []
    · rw [hqe]
      refine ⟨?_, ?_⟩
      · simp [dequeueByte, qpop]
      · intro q₂ hq₂ hne
        have : q₂ = [] := by simpa using hq₂.symm
        rw [this] at hne
        simp [List.isEmpty] at hne
    · obtain ⟨v, q', hpop, _, _⟩ := pop_preserves hqwf hqe
      refine ⟨?_, ?_⟩
      · simp only [dequeueByte, hpop]
        constructor
        · intro hcontra
          exact absurd hcontra (by simp)
        · rintro (hcontra | ⟨q₂, hq₂, hq₂e⟩)
          · exact Option.noConfusion hcontra
          · have : q₂ = q := by simpa using hq₂.symm
            rw [this] at hq₂e
            rw [List.isEmpty_iff] at hq₂e
            exact absurd hq₂e hqe
      · intro q₂ hq₂ _
        have hq₂q : q₂ = q := by simpa using hq₂.symm
        rw [hq₂q]
        exact ⟨v, q', hpop, by simp [dequeueByte, hpop]⟩

/-- Concrete single-node queue holding one byte, used to witness C4. -/
def rbOneC4 : RingBuffer Nat 2 := ⟨0, 1, 1, fun _ => 5⟩

theorem claim_C4_dequeue_byte_witness :
    dequeueByte (some [rbOneC4]) = .illegalOp ↔
      some [rbOneC4] = none ∨ ∃ q, some [rbOneC4] = some q ∧ q.isEmpty = true :=
  (claim_C4_dequeue_byte (some [rbOneC4])
    (fun q hq => by
      have hq' : [rbOneC4] = q := by simpa using hq
      refine hq' ▸ ?_
      intro rb hrb
      have hrb' : rb = rbOneC4 := by simpa using hrb
      rw [hrb']
      exact ⟨⟨by decide, by decide, by decide⟩, by decide⟩)).1

/-- C10: queue_is_empty and queue_size accept a null handle without any
callback: the former returns true, the latter 0. -/
theorem claim_C10_null_handle :
    queueIsEmpty (none : Option (Queue β count)) = .ret true ∧
    queueSize (none : Option (Queue β count)) = .ret 0 :=
  ⟨rfl, rfl⟩

/-! ### C5: ring_buffer push versus emplace on a full buffer

push signals the recoverable container-full error (the fail macro); emplace
raises a fatal assertion (the fatal macro), which aborts instead of
returning an error.  The claim that both produce the recoverable error is
refuted on a concrete full buffer. -/

def rbFullC5 : RingBuffer Nat 2 := ⟨0, 0, 0, fun _ => 0⟩

theorem claim_C5_counterexample :
    ¬(rbFullC5.emplace 7 = RBWrite.containerFull) := by
  simp [RingBuffer.emplace, rbFullC5, RingBuffer.isFull]

/-- C5 (amended): push fails with the recoverable container-full error
precisely when free == 0, emplace hits the fatal assertion precisely when
free == 0 (the buffer is untouched in both cases), and when free > 0 both
construct the element at storage[tail], advance tail by one modulo the
capacity, and decrement free. -/
theorem claim_C5_amended (rb : RingBuffer β count) (v : β) :
    (rb.push v = .containerFull ↔ rb.free = 0) ∧
    (rb.emplace v = .fatalAbort ↔ rb.free = 0) ∧
    (rb.free ≠ 0 →
      rb.push v = .ok ⟨rb.head, (rb.tail + 1) % count, rb.free - 1,
        fun j => if j = rb.tail then v else rb.storage j⟩ ∧
      rb.emplace v = .ok ⟨rb.head, (rb.tail + 1) % count, rb.free - 1,
        fun j => if j = rb.tail then v else rb.storage j⟩) := by
  by_cases hf : rb.free = 0
  · refine ⟨?_, ?_, ?_⟩
    · simp [RingBuffer.push, RingBuffer.isFull, hf]
    · simp [RingBuffer.emplace, RingBuffer.isFull, hf]
    · intro h
      exact absurd hf h
  · refine ⟨?_, ?_, ?_⟩
    · simp [RingBuffer.push, RingBuffer.isFull, hf]
    · simp [RingBuffer.emplace, RingBuffer.isFull, hf]
    · intro _
      constructor
      · simp only [RingBuffer.push, RingBuffer.isFull]
        rw [if_neg (by simpa using hf)]
        rfl
      · simp only [RingBuffer.emplace, RingBuffer.isFull]
        rw [if_neg (by simpa using hf)]
        rfl

/-- Concrete empty buffer used to witness the success case of C5. -/
def rbRoomC5 : RingBuffer Nat 2 := ⟨0, 0, 2, fun _ => 0⟩

theorem claim_C5_amended_witness :
    rbRoomC5.push 7 = .ok ⟨0, 1, 1, fun j => if j = 0 then 7 else rbRoomC5.storage j⟩ ∧
    rbRoomC5.emplace 7 = .ok ⟨0, 1, 1, fun j => if j = 0 then 7 else rbRoomC5.storage j⟩ :=
  (claim_C5_amended rbRoomC5 7).2.2 (by decide)

/-! ### Segments, segment managers and the growing pool

Embedding of freelist_storage (intrusive free list threaded through the
free sub-blocks of one segment), segment_metadata / segment_manager and
unique_growing_pool (the growing_pool.h variant cited by the claims).

Raw sub-block addresses inside one manager are modelled as the pair
(segment index, block offset); this is exact because segments are disjoint
arena slots, so an address determines that pair and vice versa.  The
upstream local_buffer is modelled by its count of free arena slots.
nullSent stands for the all-ones null offset of the freelist link type and
bps for blocks_per_segment. -/

/-- One segment descriptor: validity of the backing arena handle, free-list
head and count, and the link words stored in the free sub-blocks. -/
structure SegMeta where
  segValid : Bool
  flHead : Nat
  flCount : Nat
  flNext : Nat → Nat

/-- freelist_storage::insert: write the current head into the block's link
word, point the head at the block, bump the count. -/
def flInsert (m : SegMeta) (i : Nat) : SegMeta :=
  { m with flNext := fun j => if j = i then m.flHead else m.flNext j,
           flHead := i, flCount := m.flCount + 1 }

/-- freelist_storage::reset: relink blocks k-1, ..., 0 in reverse address
order (so that successive pops return low offsets first). -/
def flResetFrom : Nat → SegMeta → SegMeta
  | 0, m => m
  | k + 1, m => flResetFrom k (flInsert m k)

/-- A freshly created segment: the arena slot is claimed (valid descriptor)
and its freelist relinked to full. -/
def freshSeg (nullSent bps : Nat) : SegMeta :=
  flResetFrom bps
    { segValid := true, flHead := nullSent, flCount := 0, flNext := fun _ => 0 }

/-- A default-constructed (invalid) segment descriptor. -/
def emptySeg (nullSent : Nat) : SegMeta :=
  { segValid := false, flHead := nullSent, flCount := 0, flNext := fun _ => 0 }

/-- segment_metadata::try_allocate: nothing on an invalid or empty segment,
otherwise pop the freelist head. -/
def segTryAllocate (nullSent : Nat) (m : SegMeta) : Option (Nat × SegMeta) :=
  if !m.segValid || m.flCount == 0 then none
  else if m.flHead == nullSent then none
  else some (m.flHead,
    { m with flHead := m.flNext m.flHead, flCount := m.flCount - 1 })

/-- segment_metadata::deallocate: push the sub-block onto the segment's
freelist; if the segment thereby becomes fully free, return its backing
arena slot to the upstream allocator and invalidate the descriptor. -/
def segDeallocate (bps : Nat) (m : SegMeta) (blk : Nat) (up : Nat) :
    Option (SegMeta × Nat) :=
  if bps ≤ m.flCount then none
  else if bps ≤ blk then none
  else
    let m' := flInsert m blk
    if bps ≤ m'.flCount then some ({ m' with segValid := false }, up + 1)
    else some (m', up)

/-- C6: deallocation that fills the freelist returns the backing slot
upstream and nulls the descriptor's backing handle; deallocation that does
not changes only the freelist head, count and link words. -/
theorem claim_C6_segment_reclaim (bps : Nat) (m : SegMeta) (blk up : Nat)
    (hcnt : m.flCount < bps) (hblk : blk < bps) :
    (m.flCount + 1 = bps →
      segDeallocate bps m blk up =
        some ({ segValid := false, flHead := blk, flCount := m.flCount + 1,
                flNext := fun j => if j = blk then m.flHead else m.flNext j },
              up + 1)) ∧
    (m.flCount + 1 < bps →
      segDeallocate bps m blk up =
        some ({ m with
                flHead := blk,
                flCount := m.flCount + 1,
                flNext := fun j => if j = blk then m.flHead else m.flNext j },
              up)) := by
  constructor
  · intro hfull
    simp only [segDeallocate, flInsert]
    rw [if_neg (by omega), if_neg (by omega), if_pos (by omega)]
  · intro hpart
    simp only [segDeallocate, flInsert]
    rw [if_neg (by omega), if_neg (by omega), if_neg (by omega)]

theorem claim_C6_segment_reclaim_witness :
    (segDeallocate 2 ⟨true, 255, 1, fun _ => 9⟩ 0 5 =
      some ({ segValid := false, flHead := 0, flCount := 2,
              flNext := fun j => if j = 0 then 255 else 9 }, 6)) ∧
    (segDeallocate 2 ⟨true, 255, 0, fun _ => 9⟩ 0 5 =
      some ({ segValid := true, flHead := 0, flCount := 1,
              flNext := fun j => if j = 0 then 255 else 9 }, 5)) :=
  ⟨(claim_C6_segment_reclaim 2 ⟨true, 255, 1, fun _ => 9⟩ 0 5
      (by decide) (by decide)).1 (by decide),
   (claim_C6_segment_reclaim 2 ⟨true, 255, 0, fun _ => 9⟩ 0 5
      (by decide) (by decide)).2 (by decide)⟩

/-- segment_manager state: high-water mark and the fixed descriptor table
(the list has length max_segments in every reachable state). -/
structure Manager where
  highWater : Nat
  segs : List SegMeta

/-- segment_manager::try_allocate scan over descriptors [0, high_water);
rem counts the remaining loop iterations (hw - i at entry) so that the
recursion is structural. -/
def mgrScanGo (nullSent : Nat) (segs : List SegMeta) (hw : Nat) :
    Nat → Nat → Option (Nat × Nat × SegMeta)
  | _, 0 => none
  | i, rem + 1 =>
    if i < hw then
      match segs[i]? with
      | none => none
      | some s =>
        match segTryAllocate nullSent s with
        | some (off, s') => some (i, off, s')
        | none => mgrScanGo nullSent segs hw (i + 1) rem
    else none

def mgrScanFrom (nullSent : Nat) (segs : List SegMeta) (hw : Nat) (i : Nat) :
    Option (Nat × Nat × SegMeta) :=
  mgrScanGo nullSent segs hw i (hw - i)

/-- segment_manager::find_free_slot: lowest-index invalid descriptor. -/
def findFreeSlot (segs : List SegMeta) : Option Nat :=
  segs.findIdx? fun s => !s.segValid

/-- segment_manager::try_allocate with allocate_new_segment: scan existing
segments, else claim the lowest free slot (extending the high-water mark),
build a fresh segment from an upstream slot and retry.  The C++ recursion
consumes a descriptor slot per round, which the fuel argument bounds. -/
def mgrTryAllocate (nullSent bps : Nat) :
    Nat → Manager → Nat → Option ((Nat × Nat) × Manager × Nat)
  | 0, _, _ => none
  | fuel + 1, m, up =>
    match mgrScanFrom nullSent m.segs m.highWater 0 with
    | some (i, off, s') =>
      some ((i, off), { m with segs := m.segs.set i s' }, up)
    | none =>
      match findFreeSlot m.segs with
      | none => none
      | some slot =>
        let hw' := if m.highWater ≤ slot then slot + 1 else m.highWater
        if up == 0 then none
        else
          mgrTryAllocate nullSent bps fuel
            { highWater := hw', segs := m.segs.set slot (freshSeg nullSent bps) }
            (up - 1)

/-- segment_metadata::owns_block as seen through the (segment, offset)
address model: the block lies in the storage range of descriptor i. -/
def segOwnsBlk (bps : Nat) (i : Nat) (s : SegMeta) (blk : Nat × Nat) : Bool :=
  s.segValid && blk.1 == i && blk.2 < bps

/-- segment_manager::find_segment_for_pointer: lowest descriptor whose valid
segment owns the address; rem counts the remaining loop iterations. -/
def mgrFindSegGo (bps : Nat) (segs : List SegMeta) (hw : Nat)
    (blk : Nat × Nat) : Nat → Nat → Option Nat
  | _, 0 => none
  | i, rem + 1 =>
    if i < hw then
      match segs[i]? with
      | none => none
      | some s =>
        if segOwnsBlk bps i s blk then some i
        else mgrFindSegGo bps segs hw blk (i + 1) rem
    else none

def mgrFindSegFrom (bps : Nat) (segs : List SegMeta) (hw : Nat)
    (blk : Nat × Nat) (i : Nat) : Option Nat :=
  mgrFindSegGo bps segs hw blk i (hw - i)

/-- segment_manager::deallocate: locate the owning segment, re-check its
validity, delegate to the descriptor's deallocate. -/
def mgrDeallocate (bps : Nat) (m : Manager) (blk : Nat × Nat) (up : Nat) :
    Option (Manager × Nat) :=
  match mgrFindSegFrom bps m.segs m.highWater blk 0 with
  | none => none
  | some segId =>
    if m.highWater ≤ segId then none
    else
      match m.segs[segId]? with
      | none => none
      | some md =>
        if !md.segValid then none
        else
          match segDeallocate bps md blk.2 up with
          | none => none
          | some (md', up') =>
            some ({ m with segs := m.segs.set segId md' }, up')

/-- Compact pointer vended by the growing pool: the packed
(manager_id, segment_id, offset) triple (null is represented separately as
an Option). -/
structure GPPtr where
  managerId : Nat
  segmentId : Nat
  offset : Nat
deriving DecidableEq

/-- unique_growing_pool state (growing_pool.h): intrusive chain of manager
nodes with the head the most recently prepended, the manager count and the
two hint caches. -/
structure Pool where
  managers : List Manager
  managerCount : Nat
  allocCache : Nat
  lookupCache : Nat

/-- get_manager_by_id walk: start at the head with current_id
= manager_count - 1 and step down (the chain is prepended, so ids count
from the tail).  Returns the position in the chain. -/
def poolWalkIdx : List Manager → Nat → Nat → Option Nat
  | [], _, _ => none
  | _ :: rest, cid, id =>
    if cid == id then some 0
    else if cid == 0 then none
    else (poolWalkIdx rest (cid - 1) id).map (· + 1)

/-- get_manager_by_id: fail on an id at or beyond the manager count, else
walk the chain. -/
def poolGetManagerIdx (p : Pool) (id : Nat) : Option Nat :=
  if p.managerCount ≤ id then none
  else poolWalkIdx p.managers (p.managerCount - 1) id

/-- A default-constructed manager node (all descriptors invalid). -/
def freshManager (nullSent maxSegs : Nat) : Manager :=
  { highWater := 0, segs := List.replicate maxSegs (emptySeg nullSent) }

/-- encode_pointer: find the segment owning the freshly vended block inside
the winning manager and pack (manager_id, segment_id, offset). -/
def encodePointer (bps : Nat) (managerId : Nat) (m : Manager)
    (blk : Nat × Nat) : Option GPPtr :=
  match mgrFindSegFrom bps m.segs m.highWater blk 0 with
  | none => none
  | some segId => some ⟨managerId, segId, blk.2⟩

/-- allocate_block, hinted path: try the manager _alloc_cache points at.
Outer none: an error propagated by the ok macro; some none: hint miss, fall
through; some (some r): success. -/
def poolAllocCacheH (nullSent bps maxSegs : Nat) (p : Pool) (up : Nat) :
    Option (Option (GPPtr × Pool × Nat)) :=
  if p.allocCache < p.managerCount then
    match poolGetManagerIdx p p.allocCache with
    | none => none
    | some idx =>
      match p.managers[idx]? with
      | none => none
      | some m =>
        match mgrTryAllocate nullSent bps (maxSegs + 1) m up with
        | none => some none
        | some (blk, m', up') =>
          match encodePointer bps p.allocCache m' blk with
          | none => none
          | some ptr =>
            some (some (ptr, { p with managers := p.managers.set idx m' }, up'))
  else some none

/-- allocate_block, scan over the chain.  NOTE (faithful to the source):
the running id starts at 0 AT THE HEAD and increases towards the tail,
which is the reverse of the numbering used by get_manager_by_id; managers
whose running id equals _alloc_cache are skipped.  Returns the winning id,
the block, the winning manager after allocation, the updated chain and the
updated upstream count. -/
def poolScanAllocH (nullSent bps maxSegs cache : Nat) :
    List Manager → Nat → Nat →
      Option (Nat × (Nat × Nat) × Manager × List Manager × Nat)
  | [], _, _ => none
  | m :: rest, id, up =>
    if id == cache then
      (poolScanAllocH nullSent bps maxSegs cache rest (id + 1) up).map
        fun r => (r.1, r.2.1, r.2.2.1, m :: r.2.2.2.1, r.2.2.2.2)
    else
      match mgrTryAllocate nullSent bps (maxSegs + 1) m up with
      | some (blk, m', up') => some (id, blk, m', m' :: rest, up')
      | none =>
        (poolScanAllocH nullSent bps maxSegs cache rest (id + 1) up).map
          fun r => (r.1, r.2.1, r.2.2.1, m :: r.2.2.2.1, r.2.2.2.2)

/-- unique_growing_pool::allocate_block (growing_pool.h): hinted path, then
the chain scan, then allocate_new_manager (prepend a node, assign it id
manager_count++, set the hint, recurse).  The fuel bounds the new-manager
recursion, which the source caps at max_managers. -/
def poolAllocateH (nullSent bps maxSegs maxMgrs : Nat) :
    Nat → Pool → Nat → Option (GPPtr × Pool × Nat)
  | 0, _, _ => none
  | fuel + 1, p, up =>
    match poolAllocCacheH nullSent bps maxSegs p up with
    | none => none
    | some (some r) => some r
    | some none =>
      match poolScanAllocH nullSent bps maxSegs p.allocCache p.managers 0 up with
      | some (id, blk, mw, mgrs', up') =>
        match encodePointer bps id mw blk with
        | none => none
        | some ptr =>
          some (ptr, { p with managers := mgrs', allocCache := id }, up')
      | none =>
        if maxMgrs ≤ p.managerCount then none
        else if up == 0 then none
        else
          poolAllocateH nullSent bps maxSegs maxMgrs fuel
            { managers := freshManager nullSent maxSegs :: p.managers,
              managerCount := p.managerCount + 1,
              allocCache := p.managerCount,
              lookupCache := p.lookupCache }
            (up - 1)

/-- Outcome of deallocate_block: an error result or success, in both cases
with the pool state and upstream count after the call. -/
inductive DeallocOut where
  | err (p : Pool) (up : Nat)
  | ok (p : Pool) (up : Nat)

/-- unique_growing_pool::deallocate_block: fail on a null pointer, fail on a
manager id at or beyond the manager count, else resolve the compact pointer
to its raw block and delegate to the owning manager. -/
def poolDeallocateH (nullSent bps : Nat) (p : Pool) (up : Nat)
    (ptr : Option GPPtr) : DeallocOut :=
  match ptr with
  | none => .err p up
  | some g =>
    if p.managerCount ≤ g.managerId then .err p up
    else
      match poolGetManagerIdx p g.managerId with
      | none => .err p up
      | some idx =>
        match p.managers[idx]? with
        | none => .err p up
        | some m =>
          let blk : Option (Nat × Nat) :=
            if g.segmentId < m.highWater then
              match m.segs[g.segmentId]? with
              | some s => if s.segValid then some (g.segmentId, g.offset) else none
              | none => none
            else none
          match blk with
          | none => .err p up
          | some b =>
            match mgrDeallocate bps m b up with
            | none => .err p up
            | some (m', up') => .ok { p with managers := p.managers.set idx m' } up'

/-- C9: deallocate_block with a null compact pointer or an out-of-range
manager id returns an error before any mutation, leaving the pool state and
the upstream allocator untouched. -/
theorem claim_C9_deallocate_guards (nullSent bps : Nat) (p : Pool) (up : Nat)
    (ptr : Option GPPtr)
    (h : ptr = none ∨ ∃ g, ptr = some g ∧ p.managerCount ≤ g.managerId) :
    poolDeallocateH nullSent bps p up ptr = .err p up := by
  rcases h with h | ⟨g, hg, hge⟩
  · rw [h]
    rfl
  · rw [hg]
    simp [poolDeallocateH, hge]

theorem claim_C9_deallocate_guards_witness :
    poolDeallocateH 255 2 ⟨[], 0, 0, 0⟩ 4 (some ⟨5, 0, 0⟩) =
      .err ⟨[], 0, 0, 0⟩ 4 :=
  claim_C9_deallocate_guards 255 2 ⟨[], 0, 0, 0⟩ 4 (some ⟨5, 0, 0⟩)
    (Or.inr ⟨⟨5, 0, 0⟩, rfl, by decide⟩)

/-! ### C2 scenario: pool grown to three managers, one block of manager 0
freed, then allocate_block

Concrete small configuration: blocks_per_segment = 2, max_segments = 2 (so
each manager holds 4 sub-blocks), max_managers = 8, null link offset 255,
16 upstream arena slots.  Twelve allocations from the empty pool fill three
managers exactly (each manager costs one upstream slot for its node and one
per segment). -/

/-- One C2-scenario allocation step, threading pool state, upstream count
and the list of vended pointers. -/
def c2Step (s : Pool × Nat × List GPPtr) : Option (Pool × Nat × List GPPtr) :=
  match poolAllocateH 255 2 2 8 8 s.1 s.2.1 with
  | none => none
  | some (ptr, p', up') => some (p', up', s.2.2 ++ [ptr])

/-- n allocations starting from the empty pool with 16 upstream slots. -/
def c2Iter : Nat → Option (Pool × Nat × List GPPtr)
  | 0 => some (⟨[], 0, 0, 0⟩, 16, [])
  | n + 1 =>
    match c2Iter n with
    | none => none
    | some s => c2Step s

/-- The drained state: three full managers. -/
def c2Drained : Option (Pool × Nat × List GPPtr) := c2Iter 12

/-- Free the first block ever vended (it belongs to manager 0) and return
the state after the deallocation. -/
def c2AfterFree : Option (Pool × Nat) :=
  match c2Drained with
  | none => none
  | some (p, up, ptrs) =>
    match ptrs[0]? with
    | none => none
    | some p0 =>
      match poolDeallocateH 255 2 p up (some p0) with
      | .ok p' up' => some (p', up')
      | .err _ _ => none

/-- The compact pointer returned by the next allocate_block call. -/
def c2Final : Option GPPtr :=
  match c2AfterFree with
  | none => none
  | some (p, up) => (poolAllocateH 255 2 2 8 8 p up).map (·.1)

/-- C2: evaluating growing_pool.h's allocate_block in the spec scenario.
After twelve allocations the pool holds exactly three managers and the
first vended pointer carries manager_id 0; freeing that block and calling
allocate_block again succeeds but returns a pointer with manager_id 3 (a
freshly created fourth manager), not manager_id 0 as the claim requires:
the scan inside allocate_block numbers managers from the head of the
prepended chain and skips the stale hint id, so the freed block in manager
0 is never found. -/
theorem claim_C2_code_eval :
    (c2Drained.map fun r => (r.1.managerCount, (r.2.2.map GPPtr.managerId)[0]?))
        = some (3, some 0) ∧
    c2Final.map GPPtr.managerId = some 3 ∧
    c2Final.map GPPtr.managerId ≠ some 0 := by
  refine ⟨by decide, by decide, by decide⟩

/-! ### Compact pointer arithmetic (basic_growing_pool_ptr, second variant)

advance_impl converts the packed triple to one linear position, adds the
element count (the byte argument divided by sizeof(T), which for the
operators p += n / p -= n is exactly n), checks for wrap-around below zero
and for overflow past the pool capacity (both fatal), and unpacks the
result back into the bit-fields (stores truncate to the field widths). -/

/-- Compile-time parameters of one pointer type: offset_count_v,
segment_count_v, manager_count_v. -/
structure PtrCfg where
  offsetCount : Nat
  segmentCount : Nat
  managerCount : Nat

/-- std::bit_width: number of bits needed to represent n (0 for 0).  The
fuel (first argument of the worker) makes the halving recursion structural,
so the function evaluates inside the kernel. -/
def bitWidthAux : Nat → Nat → Nat
  | 0, _ => 0
  | fuel + 1, n => if n = 0 then 0 else bitWidthAux fuel (n / 2) + 1

def bitWidth (n : Nat) : Nat := bitWidthAux n n

theorem bitWidthAux_spec : ∀ (fuel n : Nat), n ≤ fuel → n < 2 ^ bitWidthAux fuel n := by
  intro fuel
  induction fuel with
  | zero =>
    intro n hn
    interval_cases n
    simp [bitWidthAux]
  | succ fuel ih =>
    intro n hn
    by_cases h0 : n = 0
    · simp [bitWidthAux, h0]
    · have hrec := ih (n / 2) (by omega)
      simp only [bitWidthAux, h0, if_false]
      have : 2 ^ (bitWidthAux fuel (n / 2) + 1) = 2 * 2 ^ bitWidthAux fuel (n / 2) := by
        ring

      omega

theorem lt_two_pow_bitWidth (n : Nat) : n < 2 ^ bitWidth n :=
  bitWidthAux_spec n n le_rfl

/-- offset_bits = bit_width(offset_count - 1), and likewise for the other
two fields. -/
def PtrCfg.offsetBits (c : PtrCfg) : Nat := bitWidth (c.offsetCount - 1)

def PtrCfg.segmentBits (c : PtrCfg) : Nat := bitWidth (c.segmentCount - 1)

def PtrCfg.managerBits (c : PtrCfg) : Nat := bitWidth (c.managerCount - 1)

/-- null_manager_index = (1 << manager_bits) - 1. -/
def PtrCfg.nullManagerIndex (c : PtrCfg) : Nat := 2 ^ c.managerBits - 1

/-- max_manager_index = null_manager_index - 1. -/
def PtrCfg.maxManagerIndex (c : PtrCfg) : Nat := c.nullManagerIndex - 1

/-- blocks_per_manager = blocks_per_segment * segment_count. -/
def PtrCfg.blocksPerManager (c : PtrCfg) : Nat :=
  c.offsetCount * c.segmentCount

/-- total_blocks = (max_manager_index + 1) * blocks_per_manager. -/
def PtrCfg.totalBlocks (c : PtrCfg) : Nat :=
  (c.maxManagerIndex + 1) * c.blocksPerManager

/-- The linear position of a non-null pointer. -/
def linOf (c : PtrCfg) (p : GPPtr) : Nat :=
  p.managerId * c.blocksPerManager + p.segmentId * c.offsetCount + p.offset

/-- Unpacking of a linear position into the three bit-fields; each store
truncates to the field width. -/
def decomposeP (c : PtrCfg) (lin : Nat) : GPPtr :=
  ⟨(lin / c.blocksPerManager) % 2 ^ c.managerBits,
   ((lin % c.blocksPerManager) / c.offsetCount) % 2 ^ c.segmentBits,
   ((lin % c.blocksPerManager) % c.offsetCount) % 2 ^ c.offsetBits⟩

/-- Outcome of advance_impl: a fatal assertion or the updated pointer. -/
inductive AdvOut where
  | fatal
  | ok (p : Option GPPtr)
deriving DecidableEq

/-- advance_impl for an advancement of n elements (null is a no-op; the
uintptr_t addition wraps modulo 2^64; wrap-around on a negative count and
overflow past total_blocks are fatal). -/
def advanceImpl (c : PtrCfg) (g : Option GPPtr) (n : Int) : AdvOut :=
  match g with
  | none => .ok none
  | some p =>
    let lin : Nat := linOf c p
    let newLin : Nat := (((lin : Int) + n) % (2 : Int) ^ 64).toNat
    if n < 0 ∧ lin < newLin then .fatal
    else if c.totalBlocks ≤ newLin then .fatal
    else .ok (some (decomposeP c newLin))

theorem advanceImpl_some_eq (c : PtrCfg) (p : GPPtr) (n : Int) :
    advanceImpl c (some p) n =
      (if n < 0 ∧ linOf c p < (((linOf c p : Int) + n) % (2 : Int) ^ 64).toNat
       then .fatal
       else if c.totalBlocks ≤ (((linOf c p : Int) + n) % (2 : Int) ^ 64).toNat
       then .fatal
       else .ok (some
         (decomposeP c (((linOf c p : Int) + n) % (2 : Int) ^ 64).toNat))) :=
  rfl

theorem linOf_lt_total (c : PtrCfg) (p : GPPtr)
    (hoc : 0 < c.offsetCount) (hsc : 0 < c.segmentCount)
    (hoff : p.offset < c.offsetCount) (hseg : p.segmentId < c.segmentCount)
    (hmgr : p.managerId ≤ c.maxManagerIndex) :
    linOf c p < c.totalBlocks := by
  have hm : p.managerId * c.blocksPerManager ≤
      c.maxManagerIndex * c.blocksPerManager :=
    Nat.mul_le_mul_right _ hmgr
  have hs : p.segmentId * c.offsetCount + c.offsetCount ≤
      c.segmentCount * c.offsetCount := by
    have h1 : p.segmentId + 1 ≤ c.segmentCount := hseg
    have := Nat.mul_le_mul_right c.offsetCount h1
    simpa [Nat.add_mul] using this
  have hcomm : c.blocksPerManager = c.segmentCount * c.offsetCount :=
    Nat.mul_comm _ _
  have hexp : (c.maxManagerIndex + 1) * c.blocksPerManager =
      c.maxManagerIndex * c.blocksPerManager + c.blocksPerManager := by
    ring
  simp only [linOf, PtrCfg.totalBlocks]
  omega

theorem decomposeP_linOf (c : PtrCfg) (p : GPPtr)
    (hoc : 0 < c.offsetCount) (hsc : 0 < c.segmentCount)
    (hoff : p.offset < c.offsetCount) (hseg : p.segmentId < c.segmentCount)
    (hmgr : p.managerId ≤ c.maxManagerIndex) :
    decomposeP c (linOf c p) = p := by
  have hbpm : 0 < c.blocksPerManager := Nat.mul_pos hoc hsc
  have hrem : p.segmentId * c.offsetCount + p.offset <
      c.blocksPerManager := by
    have hs : p.segmentId * c.offsetCount + c.offsetCount ≤
        c.segmentCount * c.offsetCount := by
      have := Nat.mul_le_mul_right c.offsetCount (show p.segmentId + 1 ≤ c.segmentCount from hseg)
      simpa [Nat.add_mul] using this
    have hcomm : c.blocksPerManager = c.segmentCount * c.offsetCount :=
      Nat.mul_comm _ _
    omega
  have hdiv : linOf c p / c.blocksPerManager = p.managerId := by
    simp only [linOf]
    rw [Nat.add_assoc, Nat.mul_comm p.managerId, Nat.mul_add_div hbpm]
    rw [Nat.div_eq_of_lt hrem]
    omega
  have hmod : linOf c p % c.blocksPerManager =
      p.segmentId * c.offsetCount + p.offset := by
    simp only [linOf]
    rw [Nat.add_assoc, Nat.mul_comm p.managerId, Nat.mul_add_mod]
    exact Nat.mod_eq_of_lt hrem
  have hdiv2 : (p.segmentId * c.offsetCount + p.offset) / c.offsetCount =
      p.segmentId := by
    rw [Nat.mul_comm p.segmentId, Nat.mul_add_div hoc, Nat.div_eq_of_lt hoff]
    omega
  have hmod2 : (p.segmentId * c.offsetCount + p.offset) % c.offsetCount =
      p.offset := by
    rw [Nat.mul_comm p.segmentId, Nat.mul_add_mod]
    exact Nat.mod_eq_of_lt hoff
  have hmgr2 : p.managerId % 2 ^ c.managerBits = p.managerId := by
    apply Nat.mod_eq_of_lt
    have h1 : c.maxManagerIndex < 2 ^ c.managerBits := by
      simp only [PtrCfg.maxManagerIndex, PtrCfg.nullManagerIndex]
      have : 0 < 2 ^ c.managerBits := Nat.pos_pow_of_pos _ (by omega)
      omega
    omega
  have hseg2 : p.segmentId % 2 ^ c.segmentBits = p.segmentId := by
    apply Nat.mod_eq_of_lt
    have h1 : c.segmentCount - 1 < 2 ^ c.segmentBits := lt_two_pow_bitWidth _
    omega
  have hoff2 : p.offset % 2 ^ c.offsetBits = p.offset := by
    apply Nat.mod_eq_of_lt
    have h1 : c.offsetCount - 1 < 2 ^ c.offsetBits := lt_two_pow_bitWidth _
    omega
  simp only [decomposeP, hdiv, hmod, hdiv2, hmod2, hmgr2, hseg2, hoff2]

theorem decomposeP_canonical (c : PtrCfg) (N : Nat)
    (hoc : 0 < c.offsetCount) (hsc : 0 < c.segmentCount)
    (hN : N < c.totalBlocks) :
    (decomposeP c N).offset < c.offsetCount ∧
    (decomposeP c N).segmentId < c.segmentCount ∧
    (decomposeP c N).managerId ≤ c.maxManagerIndex ∧
    linOf c (decomposeP c N) = N := by
  have hbpm : 0 < c.blocksPerManager := Nat.mul_pos hoc hsc
  have hdivlt : N / c.blocksPerManager < c.maxManagerIndex + 1 := by
    rw [Nat.div_lt_iff_lt_mul hbpm]
    simpa [PtrCfg.totalBlocks] using hN
  have hmgr2 : N / c.blocksPerManager % 2 ^ c.managerBits =
      N / c.blocksPerManager := by
    apply Nat.mod_eq_of_lt
    have h1 : c.maxManagerIndex < 2 ^ c.managerBits := by
      simp only [PtrCfg.maxManagerIndex, PtrCfg.nullManagerIndex]
      have : 0 < 2 ^ c.managerBits := Nat.pos_pow_of_pos _ (by omega)
      omega
    omega
  have hseglt : N % c.blocksPerManager / c.offsetCount < c.segmentCount := by
    rw [Nat.div_lt_iff_lt_mul hoc]
    have := Nat.mod_lt N hbpm
    have hcomm : c.blocksPerManager = c.segmentCount * c.offsetCount :=
      Nat.mul_comm _ _
    omega
  have hseg2 : N % c.blocksPerManager / c.offsetCount % 2 ^ c.segmentBits =
      N % c.blocksPerManager / c.offsetCount := by
    apply Nat.mod_eq_of_lt
    have h1 : c.segmentCount - 1 < 2 ^ c.segmentBits := lt_two_pow_bitWidth _
    omega
  have hofflt : N % c.blocksPerManager % c.offsetCount < c.offsetCount :=
    Nat.mod_lt _ hoc
  have hoff2 : N % c.blocksPerManager % c.offsetCount % 2 ^ c.offsetBits =
      N % c.blocksPerManager % c.offsetCount := by
    apply Nat.mod_eq_of_lt
    have h1 : c.offsetCount - 1 < 2 ^ c.offsetBits := lt_two_pow_bitWidth _
    omega
  refine ⟨?_, ?_, ?_, ?_⟩
  · simp only [decomposeP, hoff2]
    exact hofflt
  · simp only [decomposeP, hseg2]
    exact hseglt
  · simp only [decomposeP, hmgr2]
    omega
  · simp only [linOf, decomposeP, hmgr2, hseg2, hoff2]
    rw [Nat.add_assoc, Nat.div_add_mod' (N % c.blocksPerManager) c.offsetCount,
      Nat.div_add_mod']

/-- Value of the wrapped linear position when an advance succeeds: within
the int64 ranges of the source the wrap-around never survives the fatal
checks, so a surviving advance computed exactly lin + n. -/
theorem advance_success_lin (c : PtrCfg) (L : Nat) (n : Int)
    (htot : c.totalBlocks ≤ 2 ^ 63) (hL : L < c.totalBlocks)
    (hn : n.natAbs ≤ 2 ^ 62)
    (h1 : ¬(n < 0 ∧ L < (((L : Int) + n) % (2 : Int) ^ 64).toNat))
    (h2 : ¬(c.totalBlocks ≤ (((L : Int) + n) % (2 : Int) ^ 64).toNat)) :
    ((((L : Int) + n) % (2 : Int) ^ 64).toNat : Int) = (L : Int) + n ∧
    0 ≤ (L : Int) + n := by
  have e64 : ((2 : Int) ^ 64) = 18446744073709551616 := by norm_num
  have e63 : ((2 : Nat) ^ 63) = 9223372036854775808 := by norm_num
  have e62 : ((2 : Nat) ^ 62) = 4611686018427387904 := by norm_num
  rw [e64] at h1 h2 ⊢
  rw [e63] at htot
  rw [e62] at hn
  omega

/-- C8: for a canonical non-null compact pointer p and integer n such that
p + n stays in range (no fatal assertion fires), (p + n) - n recovers p
exactly; and advancing a null compact pointer is a no-op for every n. -/
theorem claim_C8_advance_roundtrip (c : PtrCfg) (p : GPPtr) (n : Int)
    (hoc : 0 < c.offsetCount) (hsc : 0 < c.segmentCount)
    (hoff : p.offset < c.offsetCount) (hseg : p.segmentId < c.segmentCount)
    (hmgr : p.managerId ≤ c.maxManagerIndex)
    (htot : c.totalBlocks ≤ 2 ^ 63) (hn : n.natAbs ≤ 2 ^ 62)
    (p' : GPPtr) (hadv : advanceImpl c (some p) n = .ok (some p')) :
    advanceImpl c (some p') (-n) = .ok (some p) ∧
    (∀ m : Int, advanceImpl c none m = .ok none) := by
  refine ⟨?_, fun m => rfl⟩
  have hL : linOf c p < c.totalBlocks := linOf_lt_total c p hoc hsc hoff hseg hmgr
  rw [advanceImpl_some_eq] at hadv
  by_cases h1 : n < 0 ∧ linOf c p < (((linOf c p : Int) + n) % (2 : Int) ^ 64).toNat
  · rw [if_pos h1] at hadv
    exact absurd hadv (by simp)
  · rw [if_neg h1] at hadv
    by_cases h2 : c.totalBlocks ≤ (((linOf c p : Int) + n) % (2 : Int) ^ 64).toNat
    · rw [if_pos h2] at hadv
      exact absurd hadv (by simp)
    · rw [if_neg h2] at hadv
      have hp' : p' = decomposeP c (((linOf c p : Int) + n) % (2 : Int) ^ 64).toNat := by
        have := hadv
        simp only [AdvOut.ok.injEq, Option.some.injEq] at this
        exact this.symm
      obtain ⟨hNval, hnn⟩ :=
        advance_success_lin c (linOf c p) n htot hL hn h1 h2
      set N : Nat := (((linOf c p : Int) + n) % (2 : Int) ^ 64).toNat with hNdef
      have hNlt : N < c.totalBlocks := by omega
      obtain ⟨hoff', hseg', hmgr', hlin'⟩ := decomposeP_canonical c N hoc hsc hNlt
      -- second advance: linear position returns to linOf p
      rw [advanceImpl_some_eq, hp', hlin']
      have hres2 : ((N : Int) + -n) % (2 : Int) ^ 64 = (linOf c p : Int) := by
        have : (N : Int) + -n = (linOf c p : Int) := by omega
        rw [this]
        apply Int.emod_eq_of_lt (Int.ofNat_nonneg _)
        have : (linOf c p : Int) < (2 : Int) ^ 63 := by
          have := Int.ofNat_lt.mpr (Nat.lt_of_lt_of_le hL htot)
          simpa using this
        omega
      have htn2 : (((N : Int) + -n) % (2 : Int) ^ 64).toNat = linOf c p := by
        rw [hres2]
        simp
      rw [htn2]
      rw [if_neg ?_, if_neg (by omega)]
      · rw [decomposeP_linOf c p hoc hsc hoff hseg hmgr]
      · rintro ⟨hneg2, hlt2⟩
        -- -n < 0 means n > 0, so N = L + n ≥ L: no wrap back below L
        have hn0 : 0 < n := by omega
        have : (linOf c p : Int) ≤ (N : Int) := by omega
        omega

theorem claim_C8_advance_roundtrip_witness :
    advanceImpl ⟨4, 4, 8⟩ (some ⟨2, 0, 0⟩) (-5) = .ok (some ⟨1, 2, 3⟩) ∧
    (∀ m : Int, advanceImpl ⟨4, 4, 8⟩ none m = .ok none) :=
  claim_C8_advance_roundtrip ⟨4, 4, 8⟩ ⟨1, 2, 3⟩ 5
    (by decide) (by decide) (by decide) (by decide) (by decide)
    (by decide) (by decide) ⟨2, 0, 0⟩ (by decide)

/-! ### Compact pointer round trip (constructor from a raw address, resolve)

Byte-level address model used by the compact-pointer constructor and
resolution chain: each segment descriptor carries the base address of its
backing arena slot; a raw pointer is a byte address.  bs is sizeof(T) of
the pool's block type (= block_size), bps is blocks_per_segment; a segment
spans bps * bs bytes.  Address 0 plays the role of nullptr. -/

structure SegAddr where
  valid : Bool
  base : Nat

structure MgrMem where
  highWater : Nat
  segs : List SegAddr

structure PoolMem where
  mgrs : List MgrMem
  count : Nat
  allocCache : Nat
  lookupCache : Nat

/-- freelist::owns / segment_metadata::owns_block: the address lies inside
the segment's storage range. -/
def segOwnsAddr (bs bps : Nat) (s : SegAddr) (addr : Nat) : Bool :=
  s.valid && decide (s.base ≤ addr) && decide (addr < s.base + bps * bs)

/-- segment_manager::owns: scan descriptors [i, high_water) (rem bounds the
remaining iterations so the loop is structural). -/
def mgrOwnsGo (bs bps : Nat) (m : MgrMem) (addr : Nat) : Nat → Nat → Bool
  | _, 0 => false
  | i, rem + 1 =>
    if i < m.highWater then
      (match m.segs[i]? with
       | none => false
       | some s => segOwnsAddr bs bps s addr) || mgrOwnsGo bs bps m addr (i + 1) rem
    else false

def mgrOwnsAddr (bs bps : Nat) (m : MgrMem) (addr : Nat) : Bool :=
  mgrOwnsGo bs bps m addr 0 m.highWater

/-- segment_manager::find_segment_for_pointer over the address model. -/
def mgrFindSegAddrGo (bs bps : Nat) (m : MgrMem) (addr : Nat) :
    Nat → Nat → Option Nat
  | _, 0 => none
  | i, rem + 1 =>
    if i < m.highWater then
      match m.segs[i]? with
      | none => none
      | some s =>
        if segOwnsAddr bs bps s addr then some i
        else mgrFindSegAddrGo bs bps m addr (i + 1) rem
    else none

def mgrFindSegAddr (bs bps : Nat) (m : MgrMem) (addr : Nat) : Option Nat :=
  mgrFindSegAddrGo bs bps m addr 0 m.highWater

/-- get_manager_by_id walk (head carries id count-1). -/
def walkMgrById : List MgrMem → Nat → Nat → Option MgrMem
  | [], _, _ => none
  | m :: rest, cid, id =>
    if cid == id then some m
    else if cid == 0 then none
    else walkMgrById rest (cid - 1) id

def getMgrById (P : PoolMem) (id : Nat) : Option MgrMem :=
  if P.count ≤ id then none
  else walkMgrById P.mgrs (P.count - 1) id

/-- find_manager_for_pointer, cold path: walk the chain with the running
id starting at manager_count and pre-decremented at each node, skipping the
two cached ids. -/
def findMgrScan (bs bps : Nat) (addr ac lc : Nat) :
    List MgrMem → Nat → Option Nat
  | [], _ => none
  | m :: rest, id =>
    if (id - 1) ≠ ac ∧ (id - 1) ≠ lc ∧ mgrOwnsAddr bs bps m addr = true then
      some (id - 1)
    else findMgrScan bs bps addr ac lc rest (id - 1)

/-- Scan step of find_manager_for_pointer; the second component is the
lookup cache after the call. -/
def findMgrViaScan (bs bps : Nat) (P : PoolMem) (addr : Nat) :
    Option Nat × Nat :=
  match findMgrScan bs bps addr P.allocCache P.lookupCache P.mgrs P.count with
  | some id => (some id, id)
  | none => (none, P.lookupCache)

/-- Lookup-cache step of find_manager_for_pointer. -/
def findMgrViaLookup (bs bps : Nat) (P : PoolMem) (addr : Nat) :
    Option Nat × Nat :=
  if P.lookupCache < P.count ∧ P.lookupCache ≠ P.allocCache then
    match getMgrById P P.lookupCache with
    | none => (none, P.lookupCache)
    | some m =>
      if mgrOwnsAddr bs bps m addr then (some P.lookupCache, P.lookupCache)
      else findMgrViaScan bs bps P addr
  else findMgrViaScan bs bps P addr

/-- unique_growing_pool::find_manager_for_pointer: allocation hint, then
lookup hint, then the cold scan; a failed get_manager_by_id propagates as
an error (first component none). -/
def findManagerForPointer (bs bps : Nat) (P : PoolMem) (addr : Nat) :
    Option Nat × Nat :=
  if P.allocCache < P.count then
    match getMgrById P P.allocCache with
    | none => (none, P.lookupCache)
    | some m =>
      if mgrOwnsAddr bs bps m addr then (some P.allocCache, P.allocCache)
      else findMgrViaLookup bs bps P addr
  else findMgrViaLookup bs bps P addr

/-- get_segment_base(manager_id, segment_id). -/
def getSegmentBase (P : PoolMem) (mid sid : Nat) : Option Nat :=
  match getMgrById P mid with
  | none => none
  | some m =>
    if m.highWater ≤ sid then none
    else
      match m.segs[sid]? with
      | none => none
      | some s => if s.valid then some s.base else none

/-- find_segment_in_manager(manager_id, ptr). -/
def findSegmentInManager (bs bps : Nat) (P : PoolMem) (mid addr : Nat) :
    Option Nat :=
  match getMgrById P mid with
  | none => none
  | some m => mgrFindSegAddr bs bps m addr

/-- compute_offset_in_segment(manager_id, segment_id, ptr, elem_size) for
a non-void element type: block index with negativity and misalignment
checks. -/
def computeOffsetInSegment (P : PoolMem) (mid sid addr es : Nat) :
    Option Nat :=
  match getSegmentBase P mid sid with
  | none => none
  | some b =>
    if addr < b then none
    else if (addr - b) % es ≠ 0 then none
    else some ((addr - b) / es)

/-- Outcome of the converting constructor from void*: either one of the
delegate constructor's fatal range assertions fires, or a compact pointer
(possibly null) is produced. -/
inductive CtorOut where
  | fatalStop
  | made (g : Option GPPtr)
deriving DecidableEq

/-- basic_growing_pool_ptr(void*): null address → null pointer; otherwise
find the owning manager, the owning segment, the offset — any failure
yields the null pointer — and pack the triple through the delegate
constructor, whose range checks (against the maximum field indices mM, mS,
mO) are fatal. -/
def mkFromRaw (bs bps mM mS mO : Nat) (P : PoolMem) (addr : Nat) : CtorOut :=
  if addr = 0 then .made none
  else
    match (findManagerForPointer bs bps P addr).1 with
    | none => .made none
    | some mid =>
      match findSegmentInManager bs bps P mid addr with
      | none => .made none
      | some sid =>
        match computeOffsetInSegment P mid sid addr bs with
        | none => .made none
        | some off =>
          if mM < mid then .fatalStop
          else if mS < sid then .fatalStop
          else if mO < off then .fatalStop
          else .made (some ⟨mid, sid, off⟩)

/-- resolve_impl: null resolves to nullptr; otherwise segment base plus
offset * sizeof(T). -/
def resolveCPtr (bs : Nat) (P : PoolMem) (g : Option GPPtr) : Option Nat :=
  match g with
  | none => none
  | some gp =>
    match getSegmentBase P gp.managerId gp.segmentId with
    | none => none
    | some b => some (b + gp.offset * bs)

/-- No two live segments of the pool overlap (they are distinct arena
slots). -/
def SegDisjoint (bs bps : Nat) (P : PoolMem) : Prop :=
  ∀ (i j a b : Nat) (mi mj : MgrMem) (si sj : SegAddr),
    P.mgrs[i]? = some mi → P.mgrs[j]? = some mj →
    mi.segs[a]? = some si → mj.segs[b]? = some sj →
    a < mi.highWater → b < mj.highWater →
    si.valid = true → sj.valid = true → (i, a) ≠ (j, b) →
    si.base + bps * bs ≤ sj.base ∨ sj.base + bps * bs ≤ si.base

theorem segOwnsAddr_iff (bs bps : Nat) (s : SegAddr) (addr : Nat) :
    segOwnsAddr bs bps s addr = true ↔
      s.valid = true ∧ s.base ≤ addr ∧ addr < s.base + bps * bs := by
  simp [segOwnsAddr, Bool.and_eq_true, and_assoc]

theorem walkMgrById_eq : ∀ (l : List MgrMem) (cid id : Nat), id ≤ cid →
    walkMgrById l cid id = l[cid - id]? := by
  intro l
  induction l with
  | nil =>
    intro cid id h
    simp [walkMgrById]
  | cons m rest ih =>
    intro cid id h
    simp only [walkMgrById]
    by_cases he : cid = id
    · rw [if_pos (by simpa using he)]
      rw [he, Nat.sub_self]
      simp
    · rw [if_neg (by simpa using he)]
      have hlt : id < cid := by omega
      rw [if_neg (by simp; omega)]
      rw [ih (cid - 1) id (by omega)]
      have hstep : cid - id = (cid - 1 - id) + 1 := by omega
      rw [hstep]
      simp

theorem getMgrById_eq (P : PoolMem) (id : Nat) (hid : id < P.count) :
    getMgrById P id = P.mgrs[P.count - 1 - id]? := by
  simp only [getMgrById, if_neg (by omega : ¬P.count ≤ id)]
  exact walkMgrById_eq P.mgrs (P.count - 1) id (by omega)

theorem mgrOwnsGo_true_iff (bs bps : Nat) (m : MgrMem) (addr : Nat) :
    ∀ (rem i : Nat), m.highWater ≤ i + rem →
      (mgrOwnsGo bs bps m addr i rem = true ↔
        ∃ t s, i ≤ t ∧ t < m.highWater ∧ m.segs[t]? = some s ∧
          segOwnsAddr bs bps s addr = true) := by
  intro rem
  induction rem with
  | zero =>
    intro i h
    simp only [mgrOwnsGo]
    constructor
    · intro hF
      exact absurd hF (by simp)
    · rintro ⟨t, s, h1, h2, _, _⟩
      omega
  | succ rem ih =>
    intro i h
    simp only [mgrOwnsGo]
    by_cases hi : i < m.highWater
    · rw [if_pos hi, Bool.or_eq_true]
      constructor
      · rintro (hm | hrec)
        · match hseq : m.segs[i]? with
          | none =>
            rw [hseq] at hm
            exact absurd hm (by simp)
          | some s =>
            rw [hseq] at hm
            exact ⟨i, s, le_rfl, hi, hseq, hm⟩
        · obtain ⟨t, s, h1, h2, h3, h4⟩ := (ih (i + 1) (by omega)).mp hrec
          exact ⟨t, s, by omega, h2, h3, h4⟩
      · rintro ⟨t, s, h1, h2, h3, h4⟩
        by_cases hti : t = i
        · left
          rw [← hti, h3]
          exact h4
        · right
          exact (ih (i + 1) (by omega)).mpr ⟨t, s, by omega, h2, h3, h4⟩
    · rw [if_neg hi]
      constructor
      · intro hF
        exact absurd hF (by simp)
      · rintro ⟨t, s, h1, h2, _, _⟩
        omega

theorem mgrOwnsAddr_true_iff (bs bps : Nat) (m : MgrMem) (addr : Nat) :
    mgrOwnsAddr bs bps m addr = true ↔
      ∃ t s, t < m.highWater ∧ m.segs[t]? = some s ∧
        segOwnsAddr bs bps s addr = true := by
  rw [mgrOwnsAddr, mgrOwnsGo_true_iff bs bps m addr m.highWater 0 (by omega)]
  constructor
  · rintro ⟨t, s, _, h2, h3, h4⟩
    exact ⟨t, s, h2, h3, h4⟩
  · rintro ⟨t, s, h2, h3, h4⟩
    exact ⟨t, s, Nat.zero_le _, h2, h3, h4⟩

theorem mgrFindSegAddrGo_finds (bs bps : Nat) (m : MgrMem) (addr : Nat)
    (sid : Nat) (hsid : sid < m.highWater)
    (hlenm : m.highWater ≤ m.segs.length)
    (huniq : ∀ t s', t < m.highWater → m.segs[t]? = some s' →
      (segOwnsAddr bs bps s' addr = true ↔ t = sid)) :
    ∀ (rem i : Nat), m.highWater ≤ i + rem → i ≤ sid →
      mgrFindSegAddrGo bs bps m addr i rem = some sid := by
  intro rem
  induction rem with
  | zero =>
    intro i h1 h2
    omega
  | succ rem ih =>
    intro i h1 h2
    have hi : i < m.highWater := by omega
    have hilen : i < m.segs.length := by omega
    have hsome : m.segs[i]? = some m.segs[i] := List.getElem?_eq_getElem hilen
    simp only [mgrFindSegAddrGo, if_pos hi, hsome]
    by_cases hisid : i = sid
    · rw [if_pos ((huniq i _ hi hsome).mpr hisid)]
      rw [hisid]
    · rw [if_neg ?_]
      · exact ih (i + 1) (by omega) (by omega)
      · intro howns
        exact hisid ((huniq i _ hi hsome).mp howns)

theorem findMgrScan_finds (bs bps : Nat) (addr ac lc mid : Nat) :
    ∀ (l : List MgrMem) (id : Nat), l.length = id →
      (∀ t mt, l[t]? = some mt →
        (mgrOwnsAddr bs bps mt addr = true ↔ id - 1 - t = mid)) →
      mid < id → mid ≠ ac → mid ≠ lc →
      findMgrScan bs bps addr ac lc l id = some mid := by
  intro l
  induction l with
  | nil =>
    intro id hlen hiff hmid _ _
    simp only [List.length_nil] at hlen
    omega
  | cons m rest ih =>
    intro id hlen hiff hmid hac hlc
    simp only [List.length_cons] at hlen
    simp only [findMgrScan]
    by_cases hhead : id - 1 = mid
    · rw [if_pos ?_]
      · rw [hhead]
      · refine ⟨by omega, by omega, ?_⟩
        apply (hiff 0 m (by simp)).mpr
        omega
    · rw [if_neg ?_]
      · apply ih (id - 1) (by omega) ?_ (by omega) hac hlc
        intro t mt ht
        have hmain := hiff (t + 1) mt (by simpa using ht)
        have harith : id - 1 - (t + 1) = id - 1 - 1 - t := by omega
        rw [harith] at hmain
        exact hmain
      · rintro ⟨h1, h2, h3⟩
        have := (hiff 0 m (by simp)).mp h3
        omega

/-- With pairwise-disjoint live segments, an address inside one live
segment is owned by exactly that manager and exactly that segment. -/
theorem owner_unique (bs bps : Nat) (P : PoolMem) (hdisj : SegDisjoint bs bps P)
    (I sid : Nat) (m : MgrMem) (s : SegAddr)
    (hIm : P.mgrs[I]? = some m) (hsid : sid < m.highWater)
    (hs : m.segs[sid]? = some s) (hv : s.valid = true)
    (r : Nat) (hin : s.base ≤ r ∧ r < s.base + bps * bs) :
    (∀ j mj, P.mgrs[j]? = some mj → mgrOwnsAddr bs bps mj r = true → j = I) ∧
    (∀ t s', t < m.highWater → m.segs[t]? = some s' →
      (segOwnsAddr bs bps s' r = true ↔ t = sid)) := by
  have key : ∀ j mj t s', P.mgrs[j]? = some mj → t < mj.highWater →
      mj.segs[t]? = some s' → segOwnsAddr bs bps s' r = true →
      j = I ∧ t = sid := by
    intro j mj t s' hj ht hts howns
    rw [segOwnsAddr_iff] at howns
    by_contra hne
    have hpairne : (j, t) ≠ (I, sid) := by
      intro hp
      obtain ⟨h1, h2⟩ := Prod.mk.injEq _ _ _ _ ▸ hp
      exact hne ⟨h1, h2⟩
    rcases hdisj j I t sid mj m s' s hj hIm hts hs ht hsid howns.1 hv hpairne
      with hd | hd
    · omega
    · omega
  constructor
  · intro j mj hj howns
    obtain ⟨t, s', ht, hts, hseg⟩ := (mgrOwnsAddr_true_iff bs bps mj r).mp howns
    exact (key j mj t s' hj ht hts hseg).1
  · intro t s' ht hts
    constructor
    · intro hseg
      exact (key I m t s' hIm ht hts hseg).2
    · intro hteq
      rw [hteq] at hts
      have hss : s' = s := by
        rw [hs] at hts
        simpa using hts.symm
      rw [hss, segOwnsAddr_iff]
      exact ⟨hv, hin⟩

/-- C3: for every live raw pointer r vended by the pool (r lies in a valid
segment at a block boundary), building a compact pointer from r and
resolving it yields r again, for every state of the two hint caches. -/
theorem claim_C3_roundtrip (bs bps mM mS mO : Nat) (P : PoolMem)
    (hbs : 0 < bs) (hlen : P.mgrs.length = P.count)
    (hsegs : ∀ (j : Nat) (mj : MgrMem), P.mgrs[j]? = some mj →
      mj.highWater ≤ mj.segs.length)
    (hdisj : SegDisjoint bs bps P)
    (mid : Nat) (hmid : mid < P.count)
    (m : MgrMem) (hm : getMgrById P mid = some m)
    (sid : Nat) (hsid : sid < m.highWater)
    (s : SegAddr) (hs : m.segs[sid]? = some s) (hv : s.valid = true)
    (k : Nat) (hk : k < bps) (r : Nat) (hr : r = s.base + k * bs)
    (hr0 : r ≠ 0)
    (hmM : mid ≤ mM) (hsM : sid ≤ mS) (hkM : k ≤ mO) :
    mkFromRaw bs bps mM mS mO P r = .made (some ⟨mid, sid, k⟩) ∧
    resolveCPtr bs P (some ⟨mid, sid, k⟩) = some r := by
  have hIdx : getMgrById P mid = P.mgrs[P.count - 1 - mid]? :=
    getMgrById_eq P mid hmid
  have hIm : P.mgrs[P.count - 1 - mid]? = some m := by rw [← hIdx]; exact hm
  have hin : s.base ≤ r ∧ r < s.base + bps * bs := by
    constructor
    · omega
    · have : k * bs < bps * bs := (Nat.mul_lt_mul_right hbs).mpr hk
      omega
  obtain ⟨hmu, hsu⟩ :=
    owner_unique bs bps P hdisj (P.count - 1 - mid) sid m s hIm hsid hs hv r hin
  have howns_s : segOwnsAddr bs bps s r = true := by
    rw [segOwnsAddr_iff]
    exact ⟨hv, hin⟩
  have howns_m : mgrOwnsAddr bs bps m r = true :=
    (mgrOwnsAddr_true_iff bs bps m r).mpr ⟨sid, s, hsid, hs, howns_s⟩
  -- every consulted id below the count resolves to a manager
  have hgetm : ∀ id, id < P.count → ∃ mg, getMgrById P id = some mg := by
    intro id hid
    rw [getMgrById_eq P id hid]
    have hlt : P.count - 1 - id < P.mgrs.length := by omega
    exact ⟨P.mgrs[P.count - 1 - id], List.getElem?_eq_getElem hlt⟩
  -- a consulted manager that owns r pins its id to mid
  have hhit : ∀ id mg, id < P.count → getMgrById P id = some mg →
      mgrOwnsAddr bs bps mg r = true → id = mid := by
    intro id mg hid hget howns
    have hidx : P.mgrs[P.count - 1 - id]? = some mg := by
      rw [← getMgrById_eq P id hid]
      exact hget
    have := hmu (P.count - 1 - id) mg hidx howns
    omega
  -- per-position ownership characterisation for the cold scan
  have hmgriff : ∀ t mt, P.mgrs[t]? = some mt →
      (mgrOwnsAddr bs bps mt r = true ↔ P.count - 1 - t = mid) := by
    intro t mt hmt
    have htlen : t < P.count := by
      rw [← hlen]
      by_contra hx
      push_neg at hx
      rw [List.getElem?_eq_none hx] at hmt
      exact Option.noConfusion hmt
    constructor
    · intro howns
      have := hmu t mt hmt howns
      omega
    · intro hteq
      have hteq' : t = P.count - 1 - mid := by omega
      rw [hteq'] at hmt
      have hmm : mt = m := by
        rw [hIm] at hmt
        simpa using hmt.symm
      rw [hmm]
      exact howns_m
  -- the scan finds mid whenever both cached ids differ from mid
  have hscan : ∀ ac lc, mid ≠ ac → mid ≠ lc →
      findMgrScan bs bps r ac lc P.mgrs P.count = some mid := by
    intro ac lc hac hlc
    exact findMgrScan_finds bs bps r ac lc mid P.mgrs P.count hlen hmgriff
      hmid hac hlc
  -- the lookup-hint step then the scan always land on mid
  have hlook : mid ≠ P.allocCache →
      (findMgrViaLookup bs bps P r).1 = some mid := by
    intro hacne
    by_cases hlc : P.lookupCache < P.count ∧ P.lookupCache ≠ P.allocCache
    · obtain ⟨mlc, hmlc⟩ := hgetm P.lookupCache hlc.1
      simp only [findMgrViaLookup, if_pos hlc, hmlc]
      by_cases hlcowns : mgrOwnsAddr bs bps mlc r = true
      · rw [if_pos hlcowns]
        have hideq : P.lookupCache = mid := hhit _ _ hlc.1 hmlc hlcowns
        rw [hideq]
      · rw [if_neg hlcowns]
        have hlcne : mid ≠ P.lookupCache := by
          intro h
          rw [← h, hm] at hmlc
          have hmeq : mlc = m := by simpa using hmlc.symm
          rw [hmeq] at hlcowns
          exact hlcowns howns_m
        simp only [findMgrViaScan, hscan _ _ hacne hlcne]
    · simp only [findMgrViaLookup, if_neg hlc]
      have hlcne : mid ≠ P.lookupCache := by
        intro h
        push_neg at hlc
        have h2 := hlc (by rw [← h]; exact hmid)
        rw [← h] at h2
        exact hacne h2
      simp only [findMgrViaScan, hscan _ _ hacne hlcne]
  have hfind : (findManagerForPointer bs bps P r).1 = some mid := by
    by_cases hac : P.allocCache < P.count
    · obtain ⟨mac, hmac⟩ := hgetm P.allocCache hac
      simp only [findManagerForPointer, if_pos hac, hmac]
      by_cases hacowns : mgrOwnsAddr bs bps mac r = true
      · rw [if_pos hacowns]
        have hideq : P.allocCache = mid := hhit _ _ hac hmac hacowns
        rw [hideq]
      · rw [if_neg hacowns]
        have hacne : mid ≠ P.allocCache := by
          intro h
          rw [← h, hm] at hmac
          have hmeq : mac = m := by simpa using hmac.symm
          rw [hmeq] at hacowns
          exact hacowns howns_m
        exact hlook hacne
    · simp only [findManagerForPointer, if_neg hac]
      exact hlook (by omega)
  have hmlen : m.highWater ≤ m.segs.length := hsegs _ _ hIm
  have hfseg : findSegmentInManager bs bps P mid r = some sid := by
    simp only [findSegmentInManager, hm, mgrFindSegAddr]
    exact mgrFindSegAddrGo_finds bs bps m r sid hsid hmlen hsu m.highWater 0
      (by omega) (Nat.zero_le _)
  have hbase : getSegmentBase P mid sid = some s.base := by
    simp only [getSegmentBase, hm, if_neg (by omega : ¬m.highWater ≤ sid), hs,
      if_pos hv]
  have hoffc : computeOffsetInSegment P mid sid r bs = some k := by
    simp only [computeOffsetInSegment, hbase]
    rw [if_neg (by omega : ¬r < s.base)]
    have hsub : r - s.base = k * bs := by omega
    rw [hsub]
    rw [if_neg (by simp [Nat.mul_mod_left])]
    rw [Nat.mul_div_cancel _ hbs]
  refine ⟨?_, ?_⟩
  · simp only [mkFromRaw, if_neg hr0, hfind, hfseg, hoffc]
    rw [if_neg (by omega), if_neg (by omega), if_neg (by omega)]
  · simp only [resolveCPtr, hbase, hr]

theorem claim_C3_roundtrip_witness :
    mkFromRaw 2 2 3 3 3 ⟨[⟨1, [⟨true, 10⟩]⟩], 1, 0, 0⟩ 12 =
      .made (some ⟨0, 0, 1⟩) ∧
    resolveCPtr 2 ⟨[⟨1, [⟨true, 10⟩]⟩], 1, 0, 0⟩ (some ⟨0, 0, 1⟩) =
      some 12 :=
  claim_C3_roundtrip 2 2 3 3 3 ⟨[⟨1, [⟨true, 10⟩]⟩], 1, 0, 0⟩
    (by decide) (by decide)
    (by
      intro j mj h
      cases j with
      | zero =>
        have hmj : mj = ⟨1, [⟨true, 10⟩]⟩ := by simpa using h.symm
        rw [hmj]
        decide
      | succ j => simp at h)
    (by
      intro i j a b mi mj si sj hi hj ha hb hahw hbhw hvi hvj hne
      exfalso
      cases i with
      | zero =>
        cases j with
        | zero =>
          have hmi : mi = ⟨1, [⟨true, 10⟩]⟩ := by simpa using hi.symm
          have hmj : mj = ⟨1, [⟨true, 10⟩]⟩ := by simpa using hj.symm
          rw [hmi] at ha
          rw [hmj] at hb
          cases a with
          | zero =>
            cases b with
            | zero => exact hne rfl
            | succ b => simp at hb
          | succ a => simp at ha
        | succ j => simp at hj
      | succ i => simp at hi)
    0 (by decide) ⟨1, [⟨true, 10⟩]⟩ rfl 0 (by decide) ⟨true, 10⟩ rfl rfl
    1 (by decide) 12 (by decide) (by decide)
    (by decide) (by decide) (by decide)

end SeqFifo
